import Mathlib

/-!
# heic2jpg: the EXIF-preserving JPEG writer chain

A shallow embedding of `main.go`: the skip-prefix writer (`writerSkipper`),
the EXIF marker injector (`newWriterExif`), the conversion pipeline
(`convertHeif`, `convertFile`) and the batch driver (`run`).

Conventions of the embedding

* A byte is a natural number; the Go conversion `uint8(x)` is `x % 256`.
* A Go `io.Writer` is a state `σ` together with a write function
  `σ → List Byte → σ × Int × Option Error` (new state, count, error).
  The sink is shared by reference in Go; here its state is threaded.
* Go `int` values that the code compares with zero (`bytesToSkip`, the counts
  returned by `Write`) are `Int`.  All of them are bounded by slice lengths, so no
  machine overflow is reachable.
* A Go string is its list of characters; the characters the code inspects
  (the dot and the path separator) are ASCII.
-/

deriving instance DecidableEq for Except

namespace Heic2jpg

/-- A byte of a Go byte slice. -/
abbrev Byte := Nat

/-- Go conversion of an integer to `uint8`: the low eight bits. -/
def uint8 (x : Nat) : Byte := x % 256

/-- Go error values that the program creates, receives or compares.
`skipDir` is `filepath.SkipDir`, `skipAll` is `filepath.SkipAll`, `noEXIF` is `heif.ErrNoEXIF`, `wrap` is what
`errors.Wrap` builds, `other` is any further error of a collaborator. -/
inductive Error where
  | skipDir : Error
  | skipAll : Error
  | noEXIF : Error
  | other : String → Error
  | wrap : String → Error → Error
  deriving DecidableEq, Repr

/-- The chain walk of `errors.Is` on a non-nil error: the error or one of its
causes is `target`. -/
def Error.chainHas : Error → Error → Bool
  | Error.wrap m c, target => Error.wrap m c == target || Error.chainHas c target
  | e, target => e == target

/-- The call `errors.Is(err, target)` for a non-nil `target`; `none` is the nil
error. -/
def errorsIs (err : Option Error) (target : Error) : Bool :=
  match err with
  | none => false
  | some e => e.chainHas target

/-- The call `errors.Wrap(err, msg)`: nil for a nil error, otherwise an error that
carries `msg` and has `err` as its cause. -/
def errorsWrap (err : Option Error) (msg : String) : Option Error :=
  match err with
  | none => none
  | some e => some (Error.wrap msg e)

/-- The type of a sink's `Write` method over a sink state `σ`. -/
abbrev WriteFn (σ : Type) := σ → List Byte → σ × Int × Option Error

/-- The struct `writerSkipper`: the wrapped sink and the bytes still to skip. -/
structure writerSkipper (σ : Type) where
  w : σ
  bytesToSkip : Int
  deriving DecidableEq, Repr

/-- The method `(*writerSkipper).Write`.  Returns the writer after the call, the
count and the error. -/
def writerSkipper.Write {σ : Type} (sw : WriteFn σ) (w : writerSkipper σ)
    (data : List Byte) : writerSkipper σ × Int × Option Error :=
  if w.bytesToSkip ≤ 0 then
    match sw w.w data with
    | (s, n, err) => (⟨s, w.bytesToSkip⟩, n, err)
  else if (data.length : Int) < w.bytesToSkip then
    (⟨w.w, w.bytesToSkip - (data.length : Int)⟩, (data.length : Int), none)
  else
    match sw w.w (data.drop w.bytesToSkip.toNat) with
    | (s, n, none) => (⟨s, 0⟩, n + w.bytesToSkip, none)
    | (s, n, some err) => (⟨s, w.bytesToSkip⟩, n, some err)

/-- A sequence of `Write` calls on one `writerSkipper`, one call per chunk, in
order.  Returns the writer after the last call and the result of every call. -/
def writeChunks {σ : Type} (sw : WriteFn σ) :
    writerSkipper σ → List (List Byte) → writerSkipper σ × List (Int × Option Error)
  | w, [] => (w, [])
  | w, c :: cs =>
    match writerSkipper.Write sw w c with
    | (w1, n, err) =>
      match writeChunks sw w1 cs with
      | (w2, rs) => (w2, (n, err) :: rs)

/-- The function `newWriterExif`.  `exif` is `none` for a nil slice and `some b`
for a non-nil slice with content `b`.  On success the result is the returned
writer (which holds the sink after the header writes); on failure it is the sink
after the failing write and that write's error.  `markerLen` is a natural number:
only its low sixteen bits are used, and they are the same for every width of
`int`. -/
def newWriterExif {σ : Type} (sw : WriteFn σ) (w : σ) (exif : Option (List Byte)) :
    Except (σ × Error) (writerSkipper σ) :=
  let soi : List Byte := [0xff, 0xd8]
  match sw w soi with
  | (s1, _, some err) => Except.error (s1, err)
  | (s1, _, none) =>
    match exif with
    | none => Except.ok ⟨s1, 2⟩
    | some blob =>
      let app1Marker : Nat := 0xe1
      let markerLen : Nat := 2 + blob.length
      let marker : List Byte :=
        [0xff, uint8 app1Marker, uint8 (markerLen >>> 8), uint8 (markerLen &&& 0xff)]
      match sw s1 marker with
      | (s2, _, some err) => Except.error (s2, err)
      | (s2, _, none) =>
        match sw s2 blob with
        | (s3, _, some err) => Except.error (s3, err)
        | (s3, _, none) => Except.ok ⟨s3, 2⟩

/-- A sink accepts every write: it reports the whole slice written and no error. -/
def Accepts {σ : Type} (sw : WriteFn σ) : Prop :=
  ∀ s d, (sw s d).2 = ((d.length : Int), none)

/-- An in-memory sink in the manner of `bytes.Buffer`: every write appends its
data and succeeds. -/
def bufferWrite : WriteFn (List Byte) :=
  fun buf d => (buf ++ d, (d.length : Int), none)

/-- A sink observed from outside: next to the state of `sw` it keeps the
concatenation of all data offered to `sw`. -/
def recording {σ : Type} (sw : WriteFn σ) : WriteFn (σ × List Byte) :=
  fun st d =>
    match sw st.1 d with
    | (s, n, err) => ((s, st.2 ++ d), n, err)

/-! ### The conversion pipeline -/

/-- The external collaborators of `convertHeif` over a source handle `ρ`, a
decoded image `ι` and a sink state `σ`.

* `sinkWrite` is the `Write` method of the destination.
* `ExtractExif` is `goheif.ExtractExif`: the Go pair of returned slice (`none`
  for nil) and error.
* `Decode` is `goheif.Decode`.
* `Encode` is `jpeg.Encode(w, img, nil)`, applied to the writer that
  `newWriterExif` returned (`none` for the nil writer it returns with an error);
  only the error it returns is observed. -/
structure Collab (ρ ι σ : Type) where
  sinkWrite : WriteFn σ
  ExtractExif : ρ → Option (List Byte) × Option Error
  Decode : ρ → Except Error ι
  Encode : Option (writerSkipper σ) → ι → Option Error

/-- The function `convertHeif`, returning its error (`none` for nil). -/
def convertHeif {ρ ι σ : Type} (C : Collab ρ ι σ) (r : ρ) (writer : σ) : Option Error :=
  match C.ExtractExif r with
  | (exif, err) =>
    if err.isSome && !errorsIs err Error.noEXIF then
      errorsWrap err "extract exif failed"
    else
      match C.Decode r with
      | Except.error e => errorsWrap (some e) "decode failed"
      | Except.ok img =>
        let w := (newWriterExif C.sinkWrite writer exif).toOption
        match C.Encode w img with
        | some e => errorsWrap (some e) "encode failed"
        | none => none

/-! ### Paths -/

/-- A Go string, as the list of its characters. -/
abbrev GoString := List Char

/-- The call `os.IsPathSeparator(c)` on a Unix system. -/
def IsPathSeparator (c : Char) : Bool := c == '/'

/-- The loop of `filepath.Ext`: `n` is `i + 1` for the loop variable `i`, which
runs from `len(path) - 1` down while `i >= 0` and `path[i]` is no separator. -/
def ExtLoop (path : GoString) : Nat → GoString
  | 0 => []
  | i + 1 =>
    match path.get? i with
    | none => []
    | some c =>
      if IsPathSeparator c then []
      else if c == '.' then path.drop i
      else ExtLoop path i

/-- The function `filepath.Ext`. -/
def Ext (path : GoString) : GoString := ExtLoop path path.length

/-- The function `strings.HasSuffix`. -/
def HasSuffix (s suffix : GoString) : Bool :=
  decide (s.length ≥ suffix.length) && s.drop (s.length - suffix.length) == suffix

/-- The function `strings.TrimSuffix`. -/
def TrimSuffix (s suffix : GoString) : GoString :=
  if HasSuffix s suffix then s.take (s.length - suffix.length) else s

/-- The output path computed in `convertFile`:
`strings.TrimSuffix(p, filepath.Ext(p)) + ".jpg"`. -/
def outPath (p : GoString) : GoString :=
  let ext := Ext p
  TrimSuffix p ext ++ ".jpg".toList


/-! ### The batch driver -/

/-- What a run leaves behind, in order: an output file created or truncated by
`os.OpenFile`, the log line `Converted` with its source path, and the warning
`walk failed` with its error. -/
inductive Event where
  | created : GoString → Event
  | converted : GoString → Event
  | walkFailed : Error → Event
  deriving DecidableEq, Repr

/-- What `filepath.Walk` finds at a path: a plain file with its name; a directory
with its name, the error of reading its entries (if any) and its entries in the
order of the walk (by name); or an entry whose `Lstat` fails with the given
error. -/
inductive FsNode where
  | file : GoString → FsNode
  | dir : GoString → Option Error → List FsNode → FsNode
  | broken : GoString → Error → FsNode
  deriving Repr

/-- The name of a node (its `info.Name()`). -/
def FsNode.name : FsNode → GoString
  | FsNode.file n => n
  | FsNode.dir n _ _ => n
  | FsNode.broken n _ => n

/-- The file system and the collaborators of one run.

* `Stat` is `os.Stat`, reduced to `IsDir()` of the returned info.
* `Open` is `os.Open`.
* `OpenFile` is `os.OpenFile(outPath, O_RDWR|O_TRUNC|O_CREATE, 0644)`; its value
  is the fresh destination.
* `tree p` is the directory tree that `filepath.Walk` finds at `p`. -/
structure World (ρ ι σ : Type) where
  collab : Collab ρ ι σ
  Stat : GoString → Except Error Bool
  Open : GoString → Except Error ρ
  OpenFile : GoString → Except Error σ
  tree : GoString → FsNode

/-- The function `convertFile`: the events it leaves and its error.  The second
`errors.Wrapf` of the source has a format verb and no argument. -/
def convertFile {ρ ι σ : Type} (W : World ρ ι σ) (p : GoString) : List Event × Option Error :=
  match W.Open p with
  | Except.error err => ([], errorsWrap (some err) ("open failed, path: " ++ String.mk p))
  | Except.ok r =>
    match W.OpenFile (outPath p) with
    | Except.error err => ([], errorsWrap (some err) "open failed, path: %!s(MISSING)")
    | Except.ok out =>
      match convertHeif W.collab r out with
      | some err => ([Event.created (outPath p)], some err)
      | none => ([Event.created (outPath p), Event.converted p], none)

/-- The `fs.FileInfo` fields that the walk function reads. -/
structure FileInfo where
  Name : GoString
  IsDir : Bool
  deriving DecidableEq, Repr

/-- The function literal that `run` passes to `filepath.Walk`.  `info` is `none`
for the nil info that `Walk` passes with an `Lstat` error; `Walk` passes no nil
info without an error, and that case has no effect here. -/
def walkFn {ρ ι σ : Type} (W : World ρ ι σ) (path : GoString) (info : Option FileInfo)
    (err : Option Error) : List Event × Option Error :=
  match err with
  | some e => ([Event.walkFailed e], some Error.skipDir)
  | none =>
    match info with
    | none => ([], none)
    | some i =>
      if !i.IsDir && HasSuffix i.Name ".heic".toList then convertFile W path
      else ([], none)

/-- The type of a `filepath.WalkFunc` in this embedding. -/
abbrev WalkFunc := GoString → Option FileInfo → Option Error → List Event × Option Error

/-- The backtracking loop of `filepath.Clean` at a `..` element, after `out.w--`:
`w` goes down while `w > dotdot` and `buf[w]` is no separator.  The result is the new
`out.w`. -/
def cleanBacktrack (buf : GoString) (dotdot : Nat) : Nat → Nat
  | 0 => 0
  | w + 1 =>
    if w + 1 > dotdot && !(match buf.get? (w + 1) with
                           | some c => IsPathSeparator c
                           | none => false) then cleanBacktrack buf dotdot w
    else w + 1

/-- The main loop of `filepath.Clean` on a Unix system.  `rest` is `path[r:]`, `buf`
is the output written so far (`out.w` is its length), `dotdot` is the index where a
`..` element must stop; the first argument bounds the number of rounds by the length
of the path. -/
def cleanLoop (rooted : Bool) : Nat → GoString → GoString → Nat → GoString
  | 0, _, buf, _ => buf
  | fuel + 1, rest, buf, dotdot =>
    match rest with
    | [] => buf
    | c :: tl =>
      if IsPathSeparator c then
        cleanLoop rooted fuel tl buf dotdot
      else if c == '.' && (match tl with
                           | [] => true
                           | d :: _ => IsPathSeparator d) then
        cleanLoop rooted fuel tl buf dotdot
      else if c == '.' && (match tl with
                           | '.' :: [] => true
                           | '.' :: d :: _ => IsPathSeparator d
                           | _ => false) then
        if buf.length > dotdot then
          cleanLoop rooted fuel (tl.drop 1)
            (buf.take (cleanBacktrack buf dotdot (buf.length - 1))) dotdot
        else if !rooted then
          let buf1 := if buf.length > 0 then buf ++ ['/'] else buf
          cleanLoop rooted fuel (tl.drop 1) (buf1 ++ ['.', '.']) (buf1.length + 2)
        else
          cleanLoop rooted fuel (tl.drop 1) buf dotdot
      else
        let buf1 :=
          if (rooted && buf.length != 1) || (!rooted && buf.length != 0) then buf ++ ['/']
          else buf
        cleanLoop rooted fuel ((c :: tl).dropWhile (fun x => !IsPathSeparator x))
          (buf1 ++ (c :: tl).takeWhile (fun x => !IsPathSeparator x)) dotdot

/-- The function `filepath.Clean` on a Unix system (no volume name, `FromSlash` is
the identity). -/
def Clean (path : GoString) : GoString :=
  match path with
  | [] => ['.']
  | c :: _ =>
    let rooted := IsPathSeparator c
    let out :=
      if rooted then cleanLoop rooted path.length (path.drop 1) ['/'] 1
      else cleanLoop rooted path.length path [] 0
    if out.length == 0 then ['.'] else out

/-- The call `filepath.Join(path, name)`: the first non-empty element on, joined by
the separator and cleaned. -/
def Join (path name : GoString) : GoString :=
  if path != [] then Clean (path ++ '/' :: name)
  else if name != [] then Clean name
  else []

mutual
/-- The unexported `walk` of `path/filepath`, after the documented behaviour of
`filepath.Walk`: the function is called on the node; an error from it ends the walk
of this node; the entries of a readable directory follow in their listed order. -/
def walk (fn : WalkFunc) (path : GoString) : FsNode → List Event × Option Error
  | FsNode.file n => fn path (some ⟨n, false⟩) none
  | FsNode.broken _ e => fn path none (some e)
  | FsNode.dir n readErr entries =>
    match fn path (some ⟨n, true⟩) readErr with
    | (ev, err1) =>
      if readErr.isSome || err1.isSome then (ev, err1)
      else
        match walkEntries fn path entries with
        | (ev2, err2) => (ev ++ ev2, err2)
/-- The loop of `walk` over the entries of a directory: an error from an entry
ends the loop, unless it is `SkipDir` from a directory or from an entry whose
`Lstat` failed. -/
def walkEntries (fn : WalkFunc) (path : GoString) : List FsNode → List Event × Option Error
  | [] => ([], none)
  | e :: es =>
    match walk fn (Join path e.name) e with
    | (ev, err) =>
      let stop : Bool :=
        match e with
        | FsNode.file _ => err.isSome
        | _ => err.isSome && err != some Error.skipDir
      if stop then (ev, err)
      else
        match walkEntries fn path es with
        | (ev2, err2) => (ev ++ ev2, err2)
end

/-- A sink that holds at most `cap` bytes: a write that does not fit stores what fits
and reports a short write. -/
def limitedWrite (cap : Nat) : WriteFn (List Byte) :=
  fun buf d =>
    if buf.length + d.length ≤ cap then (buf ++ d, (d.length : Int), none)
    else (buf ++ d.take (cap - buf.length), ((cap - buf.length : Nat) : Int),
      some (Error.other "short write"))

/-- The header that `newWriterExif` sends to the sink for a blob. -/
def exifHeader : Option (List Byte) → List Byte
  | none => [0xff, 0xd8]
  | some b => [0xff, 0xd8, 0xff, 0xe1, ((2 + b.length) / 256) % 256, (2 + b.length) % 256] ++ b

/-! ### Definitions used in the statements and proofs -/

/-- The scan of `filepath.Ext` seen on the reversed path: the number of characters
before the first dot, when a dot comes before any separator. -/
def scanExt : List Char → Option Nat
  | [] => none
  | c :: r =>
    if IsPathSeparator c then none
    else if c == '.' then some 0
    else (scanExt r).map (· + 1)

/-- In the words of the specification, the final element of a path: the text after
its last separator. -/
def finalElement (p : GoString) : GoString :=
  (p.reverse.takeWhile (fun c => c != '/')).reverse

/-- In the words of the specification, the directory part of a path: the text up to
and with its last separator. -/
def dirPart (p : GoString) : GoString :=
  (p.reverse.dropWhile (fun c => c != '/')).reverse

/-- In the words of the specification, a path element without its extension, the
text from its final dot to its end; the element itself when it has no dot. -/
def withoutExtension (b : GoString) : GoString :=
  if '.' ∈ b then (b.reverse.dropWhile (fun c => c != '.')).tail.reverse else b

/-- The output path in the words of the specification: the directory part
unchanged, the extension of the final element replaced by `.jpg`. -/
def specOutPath (p : GoString) : GoString :=
  dirPart p ++ withoutExtension (finalElement p) ++ ".jpg".toList

/-- The reversed path without the extension of its final element. -/
def cutRev (r : List Char) : List Char :=
  match scanExt r with
  | none => r
  | some k => r.drop (k + 1)

/-- A world for the walk examples: the argument `d` is a directory holding the files
`a.heic` and `b.heic`; every file opens, no file has EXIF data, the encoder
succeeds, and decoding fails exactly for the source `bad`. -/
def walkDemo (bad : GoString) : World GoString Unit (List Byte) where
  collab :=
    { sinkWrite := bufferWrite
      ExtractExif := fun _ => (none, some Error.noEXIF)
      Decode := fun r =>
        if r = bad then Except.error (Error.other "invalid heic") else Except.ok ()
      Encode := fun _ _ => none }
  Stat := fun _ => Except.ok true
  Open := fun p => Except.ok p
  OpenFile := fun _ => Except.ok []
  tree := fun _ =>
    FsNode.dir "d".toList none [FsNode.file "a.heic".toList, FsNode.file "b.heic".toList]

/-- One call of the walk function by `filepath.Walk`: its three arguments. -/
structure Visit where
  path : GoString
  info : Option FileInfo
  err : Option Error
  deriving DecidableEq, Repr

mutual
/-- The calls that `filepath.Walk` makes below a node when no call returns an error
other than `SkipDir` for a reported error: the node itself, then, for a directory
that could be read, the calls for its entries in their order. -/
def visits (path : GoString) : FsNode → List Visit
  | FsNode.file n => [⟨path, some ⟨n, false⟩, none⟩]
  | FsNode.broken _ e => [⟨path, none, some e⟩]
  | FsNode.dir n readErr entries =>
    ⟨path, some ⟨n, true⟩, readErr⟩ ::
      (if readErr.isSome then [] else visitsEntries path entries)
/-- The calls for the entries of the directory `path`, in their order. -/
def visitsEntries (path : GoString) : List FsNode → List Visit
  | [] => []
  | e :: es => visits (Join path e.name) e ++ visitsEntries path es
end

/-- An error that ends a walk: non-nil and not `SkipDir`. -/
def hardError (r : Option Error) : Bool := r.isSome && r != some Error.skipDir

/-- The calls of the walk function of `run` made one after the other, up to and with
the first one that returns an error other than `SkipDir`. -/
def scanVisits {ρ ι σ : Type} (W : World ρ ι σ) : List Visit → List Event × Option Error
  | [] => ([], none)
  | v :: vs =>
    match walkFn W v.path v.info v.err with
    | (ev, r) =>
      if hardError r then (ev, r)
      else
        match scanVisits W vs with
        | (ev2, r2) => (ev ++ ev2, r2)

/-- What `walk` returns for a node when no call below it failed: `SkipDir` for an
entry whose `Lstat` failed and for a directory that could not be read. -/
def softResult : FsNode → Option Error
  | FsNode.file _ => none
  | FsNode.broken _ _ => some Error.skipDir
  | FsNode.dir _ readErr _ => if readErr.isSome then some Error.skipDir else none

theorem Accepts_recording {σ : Type} {sw : WriteFn σ} (h : Accepts sw) :
    Accepts (recording sw) := by
  intro s d
  have := h s.1 d
  simp only [recording]
  rcases hsw : sw s.1 d with ⟨s1, n, e⟩
  rw [hsw] at this
  simpa using this

theorem recording_snd {σ : Type} (sw : WriteFn σ) (st : σ × List Byte) (d : List Byte) :
    (recording sw st d).1.2 = st.2 ++ d := by
  simp only [recording]

theorem Write_accepting {σ : Type} (sw : WriteFn σ) (hacc : Accepts sw)
    (w : writerSkipper σ) (data : List Byte) :
    (writerSkipper.Write sw w data).2 = ((data.length : Int), none) := by
  unfold writerSkipper.Write
  split_ifs with h1 h2
  · have := hacc w.w data
    rcases hsw : sw w.w data with ⟨s1, n, e⟩
    rw [hsw] at this
    simpa using this
  · rfl
  · have := hacc w.w (data.drop w.bytesToSkip.toNat)
    rcases hsw : sw w.w (data.drop w.bytesToSkip.toNat) with ⟨s1, n, e⟩
    rw [hsw] at this
    simp only [Prod.mk.injEq] at this
    obtain ⟨hn, he⟩ := this
    subst he
    simp only [Prod.mk.injEq, and_true]
    rw [hn, List.length_drop]
    omega

theorem Write_recorded {σ : Type} (sw : WriteFn σ) (hacc : Accepts sw)
    (w : writerSkipper (σ × List Byte)) (data : List Byte) :
    (writerSkipper.Write (recording sw) w data).1.w.2 =
        w.w.2 ++ data.drop w.bytesToSkip.toNat ∧
    (writerSkipper.Write (recording sw) w data).1.bytesToSkip.toNat =
        w.bytesToSkip.toNat - data.length := by
  unfold writerSkipper.Write
  split_ifs with h1 h2
  · have e0 : w.bytesToSkip.toNat = 0 := by omega
    refine ⟨?_, ?_⟩
    · simp only [recording, e0, List.drop_zero]
    · simp only [e0]
      omega
  · have e0 : data.drop w.bytesToSkip.toNat = [] := by
      apply List.drop_eq_nil_of_le
      omega
    simp only [e0, List.append_nil, true_and]
    omega
  · have := Accepts_recording hacc w.w (data.drop w.bytesToSkip.toNat)
    have hr := recording_snd sw w.w (data.drop w.bytesToSkip.toNat)
    rcases hsw : recording sw w.w (data.drop w.bytesToSkip.toNat) with ⟨s1, n, e⟩
    rw [hsw] at this hr
    simp only [Prod.mk.injEq] at this
    obtain ⟨hn, he⟩ := this
    subst he
    simp only at hr ⊢
    refine ⟨hr, ?_⟩
    simp only [Int.toNat_zero]
    omega

theorem writeChunks_recorded {σ : Type} (sw : WriteFn σ) (hacc : Accepts sw)
    (cs : List (List Byte)) :
    ∀ w : writerSkipper (σ × List Byte),
      (writeChunks (recording sw) w cs).1.w.2 = w.w.2 ++ cs.flatten.drop w.bytesToSkip.toNat := by
  induction cs with
  | nil => intro w; simp [writeChunks]
  | cons c cs ih =>
    intro w
    obtain ⟨h1, h2⟩ := Write_recorded sw hacc w c
    simp only [writeChunks]
    rw [ih, h1, h2, List.flatten_cons, List.drop_append_eq_append_drop, List.append_assoc]

theorem writeChunks_results {σ : Type} (sw : WriteFn σ) (hacc : Accepts sw)
    (cs : List (List Byte)) :
    ∀ w : writerSkipper σ,
      (writeChunks sw w cs).2 = cs.map (fun c => ((c.length : Int), none)) := by
  induction cs with
  | nil => intro w; simp [writeChunks]
  | cons c cs ih =>
    intro w
    simp only [writeChunks, List.map_cons, List.cons.injEq]
    exact ⟨Write_accepting sw hacc w c, ih _⟩

theorem uint8_shift (m : Nat) : uint8 (m >>> 8) = (m / 256) % 256 := by
  simp [uint8, Nat.shiftRight_eq_div_pow]

theorem uint8_mask (m : Nat) : uint8 (m &&& 0xff) = m % 256 := by
  have h : (0xff : Nat) = 2 ^ 8 - 1 := by norm_num
  rw [uint8, h, Nat.and_pow_two_sub_one_eq_mod]
  simp

/-- The two length bytes do not depend on the width of `int`: reducing
`2 + len(exif)` modulo `2 ^ 32` or `2 ^ 64` first leaves both bytes as they are. -/
theorem marker_bytes_width_free (m : Nat) :
    uint8 ((m % 4294967296) >>> 8) = uint8 (m >>> 8) ∧
    uint8 ((m % 4294967296) &&& 0xff) = uint8 (m &&& 0xff) ∧
    uint8 ((m % 18446744073709551616) >>> 8) = uint8 (m >>> 8) ∧
    uint8 ((m % 18446744073709551616) &&& 0xff) = uint8 (m &&& 0xff) := by
  simp only [uint8_shift, uint8_mask]
  have h1 : (m % 4294967296) / 256 % 256 = m / 256 % 256 := by omega
  have h2 : (m % 4294967296) % 256 = m % 256 := by omega
  have h3 : (m % 18446744073709551616) / 256 % 256 = m / 256 % 256 := by omega
  have h4 : (m % 18446744073709551616) % 256 = m % 256 := by omega
  exact ⟨h1, h2, h3, h4⟩

theorem accepted_step {σ : Type} {sw : WriteFn σ} (hacc : Accepts sw)
    (st : σ × List Byte) (d : List Byte) :
    ∃ s1, recording sw st d = ((s1, st.2 ++ d), (d.length : Int), none) := by
  have h := Accepts_recording hacc st d
  have hr := recording_snd sw st d
  rcases hsw : recording sw st d with ⟨⟨s1, r1⟩, n, e⟩
  rw [hsw] at h hr
  simp only [Prod.mk.injEq] at h
  simp only at hr
  exact ⟨s1, by rw [hr, h.1, h.2]⟩

theorem newWriterExif_recorded {σ : Type} (sw : WriteFn σ) (hacc : Accepts sw)
    (st : σ × List Byte) (exif : Option (List Byte)) :
    ∃ s, newWriterExif (recording sw) st exif = Except.ok ⟨(s, st.2 ++ exifHeader exif), 2⟩ := by
  obtain ⟨s1, h1⟩ := accepted_step hacc st [0xff, 0xd8]
  cases exif with
  | none =>
    refine ⟨s1, ?_⟩
    simp only [newWriterExif, h1, exifHeader]
  | some b =>
    have hm : [0xff, uint8 0xe1, uint8 ((2 + b.length) >>> 8), uint8 ((2 + b.length) &&& 0xff)]
        = [0xff, 0xe1, ((2 + b.length) / 256) % 256, (2 + b.length) % 256] := by
      rw [uint8_shift, uint8_mask]
      rfl
    obtain ⟨s2, h2⟩ := accepted_step hacc (s1, st.2 ++ [0xff, 0xd8])
      [0xff, 0xe1, ((2 + b.length) / 256) % 256, (2 + b.length) % 256]
    obtain ⟨s3, h3⟩ := accepted_step hacc (s2, st.2 ++ [0xff, 0xd8] ++
      [0xff, 0xe1, ((2 + b.length) / 256) % 256, (2 + b.length) % 256]) b
    refine ⟨s3, ?_⟩
    simp only [newWriterExif, h1]
    rw [hm]
    simp only [h2, h3, exifHeader]
    simp

/-- C1: over a sink that accepts every write, a `writerSkipper` with skip count `S`
(`0 ≤ S ≤ N`) that receives a byte sequence of length `N` split into the chunks `cs`
forwards exactly the last `N - S` bytes, in order: the forwarded bytes are the
sequence without its first `S` bytes, they are `N - S` many, every call reports its
whole chunk accepted, and any other chunking `cs2` of the same sequence forwards the
same bytes. -/
theorem writerSkipper_forwards_last_bytes {σ : Type} (sw : WriteFn σ) (hacc : Accepts sw)
    (s0 : σ) (cs cs2 : List (List Byte)) (S : Int)
    (hS0 : 0 ≤ S) (hSN : S ≤ (cs.flatten.length : Int))
    (hsame : cs2.flatten = cs.flatten) :
    (writeChunks (recording sw) ⟨(s0, []), S⟩ cs).1.w.2 = cs.flatten.drop S.toNat ∧
    ((writeChunks (recording sw) ⟨(s0, []), S⟩ cs).1.w.2.length : Int)
      = (cs.flatten.length : Int) - S ∧
    cs.flatten.take S.toNat ++ (writeChunks (recording sw) ⟨(s0, []), S⟩ cs).1.w.2
      = cs.flatten ∧
    (writeChunks (recording sw) ⟨(s0, []), S⟩ cs2).1.w.2
      = (writeChunks (recording sw) ⟨(s0, []), S⟩ cs).1.w.2 ∧
    (writeChunks (recording sw) ⟨(s0, []), S⟩ cs).2
      = cs.map (fun c => ((c.length : Int), none)) := by
  have h1 := writeChunks_recorded sw hacc cs ⟨(s0, []), S⟩
  have h2 := writeChunks_recorded sw hacc cs2 ⟨(s0, []), S⟩
  simp only [List.nil_append] at h1 h2
  refine ⟨h1, ?_, ?_, ?_, writeChunks_results _ (Accepts_recording hacc) cs _⟩
  · rw [h1, List.length_drop]
    omega
  · rw [h1, List.take_append_drop]
  · rw [h1, h2, hsame]

/-- Witness of C1: five bytes in the chunks `[1] [] [2,3,4] [5]` and as one chunk,
skip count two, over the in-memory sink. -/
theorem writerSkipper_forwards_last_bytes_witness :
    Accepts bufferWrite ∧ (0 : Int) ≤ 2 ∧
    (2 : Int) ≤ ((([[1], [], [2, 3, 4], [5]] : List (List Byte)).flatten.length : Nat) : Int) ∧
    ([[1, 2, 3, 4, 5]] : List (List Byte)).flatten
      = ([[1], [], [2, 3, 4], [5]] : List (List Byte)).flatten ∧
    (writeChunks (recording bufferWrite) ⟨(([] : List Byte), []), 2⟩
        [[1], [], [2, 3, 4], [5]]).1.w.2
      = ([[1], [], [2, 3, 4], [5]] : List (List Byte)).flatten.drop (2 : Int).toNat :=
  ⟨fun _ _ => rfl, by decide, by decide, by decide,
    (writerSkipper_forwards_last_bytes bufferWrite (fun _ _ => rfl) [] [[1], [], [2, 3, 4], [5]]
      [[1, 2, 3, 4, 5]] 2 (by decide) (by decide) (by decide)).1⟩

/-- C2: over a sink that accepts every write, for a present EXIF blob `b` of length
`L ≤ 65533` and an encoder output of at least two bytes written in the chunks `cs`
to the writer that `newWriterExif` returns, the sink receives `FF D8`, `FF E1`, the
two bytes of `L + 2` in big-endian order, `b`, and the encoder output without its
first two bytes. -/
theorem newWriterExif_then_encoder_output {σ : Type} (sw : WriteFn σ) (hacc : Accepts sw)
    (s0 : σ) (b : List Byte) (cs : List (List Byte))
    (hL : b.length ≤ 65533) (hE : 2 ≤ cs.flatten.length) :
    ∃ ws, newWriterExif (recording sw) (s0, []) (some b) = Except.ok ws ∧
      (writeChunks (recording sw) ws cs).1.w.2
        = [0xff, 0xd8] ++ [0xff, 0xe1] ++ [(b.length + 2) / 256, (b.length + 2) % 256]
            ++ b ++ cs.flatten.drop 2 ∧
      (b.length + 2) / 256 < 256 ∧ (b.length + 2) % 256 < 256 ∧
      ((b.length + 2) / 256) * 256 + (b.length + 2) % 256 = b.length + 2 ∧
      ((writeChunks (recording sw) ws cs).1.w.2.length : Int)
        = 6 + b.length + (cs.flatten.length - 2) := by
  obtain ⟨s, hs⟩ := newWriterExif_recorded sw hacc (s0, []) (some b)
  have hhi : (2 + b.length) / 256 % 256 = (b.length + 2) / 256 := by omega
  have hlo : (2 + b.length) % 256 = (b.length + 2) % 256 := by omega
  have hw := writeChunks_recorded sw hacc cs ⟨(s, [] ++ exifHeader (some b)), 2⟩
  have hrec : (writeChunks (recording sw) ⟨(s, [] ++ exifHeader (some b)), 2⟩ cs).1.w.2
      = [0xff, 0xd8] ++ [0xff, 0xe1] ++ [(b.length + 2) / 256, (b.length + 2) % 256]
            ++ b ++ cs.flatten.drop 2 := by
    rw [hw]
    simp [exifHeader, hhi, hlo]
  refine ⟨_, hs, hrec, by omega, by omega, by omega, ?_⟩
  rw [hrec]
  simp only [List.length_append, List.length_cons, List.length_nil, List.length_drop]
  omega

/-- Witness of C2: a two-byte blob and the encoder output `FF D8 09 0A` in two
chunks, over the in-memory sink. -/
theorem newWriterExif_then_encoder_output_witness :
    Accepts bufferWrite ∧ ([7, 8] : List Byte).length ≤ 65533 ∧
    2 ≤ ([[0xff], [0xd8, 9, 10]] : List (List Byte)).flatten.length ∧
    ∃ ws, newWriterExif (recording bufferWrite) (([] : List Byte), []) (some [7, 8])
        = Except.ok ws ∧
      (writeChunks (recording bufferWrite) ws [[0xff], [0xd8, 9, 10]]).1.w.2
        = [0xff, 0xd8, 0xff, 0xe1, 0, 4, 7, 8, 9, 10] :=
  ⟨fun _ _ => rfl, by decide, by decide,
    (newWriterExif_then_encoder_output bufferWrite (fun _ _ => rfl) [] [7, 8]
      [[0xff], [0xd8, 9, 10]] (by decide) (by decide)).imp
      (fun _ h => ⟨h.1, h.2.1⟩)⟩

/-- C3: over a sink that accepts every write, for a present EXIF blob `b` of length
`L` with `0 ≤ L ≤ 65533`, `newWriterExif` succeeds and the sink receives exactly
`FF D8 FF E1`, then the two bytes `(L + 2) / 256` and `(L + 2) mod 256` (which are
`L + 2` in big-endian order), then the `L` bytes of `b` unmodified. -/
theorem newWriterExif_length_field {σ : Type} (sw : WriteFn σ) (hacc : Accepts sw)
    (s0 : σ) (b : List Byte) (hL : b.length ≤ 65533) :
    ∃ ws, newWriterExif (recording sw) (s0, []) (some b) = Except.ok ws ∧
      ws.w.2 = [0xff, 0xd8, 0xff, 0xe1] ++ [(b.length + 2) / 256, (b.length + 2) % 256] ++ b ∧
      (ws.w.2.drop 6 = b ∧ ws.w.2.length = 6 + b.length) ∧
      (b.length + 2) / 256 < 256 ∧ (b.length + 2) % 256 < 256 ∧
      ((b.length + 2) / 256) * 256 + (b.length + 2) % 256 = b.length + 2 := by
  obtain ⟨s, hs⟩ := newWriterExif_recorded sw hacc (s0, []) (some b)
  have hhi : (2 + b.length) / 256 % 256 = (b.length + 2) / 256 := by omega
  have hlo : (2 + b.length) % 256 = (b.length + 2) % 256 := by omega
  refine ⟨_, hs, ?_, ?_, by omega, by omega, by omega⟩
  · simp [exifHeader, hhi, hlo]
  · simp [exifHeader]
    omega

/-- Witness of C3: a blob of 300 zero bytes gets the length field `01 2E`. -/
theorem newWriterExif_length_field_witness :
    Accepts bufferWrite ∧ (List.replicate 300 (0 : Byte)).length ≤ 65533 ∧
    ∃ ws, newWriterExif (recording bufferWrite) (([] : List Byte), [])
        (some (List.replicate 300 0)) = Except.ok ws ∧
      ws.w.2 = [0xff, 0xd8, 0xff, 0xe1] ++
        [((List.replicate 300 (0 : Byte)).length + 2) / 256,
         ((List.replicate 300 (0 : Byte)).length + 2) % 256] ++ List.replicate 300 0 :=
  ⟨fun _ _ => rfl, le_of_eq_of_le (List.length_replicate 300 0) (by decide),
    (newWriterExif_length_field bufferWrite (fun _ _ => rfl) [] (List.replicate 300 0)
      (le_of_eq_of_le (List.length_replicate 300 0) (by decide))).imp
      (fun _ h => ⟨h.1, h.2.1⟩)⟩

/-- C10: over a sink that accepts every write, for a present EXIF blob `b` of length
`L > 65533`, `newWriterExif` raises no error, the two bytes after `FF D8 FF E1` are
`(L + 2) mod 65536` in big-endian order, and all `L` bytes of `b` follow them. -/
theorem newWriterExif_length_wraps {σ : Type} (sw : WriteFn σ) (hacc : Accepts sw)
    (s0 : σ) (b : List Byte) (hL : 65533 < b.length) :
    ∃ ws, newWriterExif (recording sw) (s0, []) (some b) = Except.ok ws ∧
      ws.w.2 = [0xff, 0xd8, 0xff, 0xe1] ++
        [((b.length + 2) % 65536) / 256, ((b.length + 2) % 65536) % 256] ++ b ∧
      (ws.w.2.drop 6 = b ∧ ws.w.2.length = 6 + b.length) ∧
      ((b.length + 2) % 65536) / 256 < 256 ∧ ((b.length + 2) % 65536) % 256 < 256 ∧
      (((b.length + 2) % 65536) / 256) * 256 + ((b.length + 2) % 65536) % 256
        = (b.length + 2) % 65536 ∧
      (b.length + 2) % 65536 ≠ b.length + 2 := by
  obtain ⟨s, hs⟩ := newWriterExif_recorded sw hacc (s0, []) (some b)
  have hhi : (2 + b.length) / 256 % 256 = ((b.length + 2) % 65536) / 256 := by omega
  have hlo : (2 + b.length) % 256 = ((b.length + 2) % 65536) % 256 := by omega
  refine ⟨_, hs, ?_, ?_, by omega, by omega, by omega, by omega⟩
  · simp [exifHeader, hhi, hlo]
  · simp [exifHeader]
    omega

/-- Witness of C10: a blob of 65534 zero bytes gets the length field `00 00`. -/
theorem newWriterExif_length_wraps_witness :
    Accepts bufferWrite ∧ 65533 < (List.replicate 65534 (0 : Byte)).length ∧
    ∃ ws, newWriterExif (recording bufferWrite) (([] : List Byte), [])
        (some (List.replicate 65534 0)) = Except.ok ws ∧
      ws.w.2 = [0xff, 0xd8, 0xff, 0xe1] ++
        [(((List.replicate 65534 (0 : Byte)).length + 2) % 65536) / 256,
         (((List.replicate 65534 (0 : Byte)).length + 2) % 65536) % 256]
        ++ List.replicate 65534 0 :=
  ⟨fun _ _ => rfl, lt_of_lt_of_eq (by decide) (List.length_replicate 65534 0).symm,
    (newWriterExif_length_wraps bufferWrite (fun _ _ => rfl) [] (List.replicate 65534 0)
      (lt_of_lt_of_eq (by decide) (List.length_replicate 65534 0).symm)).imp
      (fun _ h => ⟨h.1, h.2.1⟩)⟩

/-- C4, the case that fails: a present blob of length zero gets an `FF E1` segment
with the length field `00 02`; the sink does not receive `FF D8` alone. -/
theorem newWriterExif_empty_blob_gets_segment :
    Accepts bufferWrite ∧
    newWriterExif (recording bufferWrite) (([] : List Byte), []) (some [])
      = Except.ok ⟨([0xff, 0xd8, 0xff, 0xe1, 0, 2], [0xff, 0xd8, 0xff, 0xe1, 0, 2]), 2⟩ ∧
    ¬ ∃ ws, newWriterExif (recording bufferWrite) (([] : List Byte), []) (some [])
        = Except.ok ws ∧ ws.w.2 = [0xff, 0xd8] := by
  refine ⟨fun _ _ => rfl, by decide, ?_⟩
  rintro ⟨ws, h, hw⟩
  have h2 : newWriterExif (recording bufferWrite) (([] : List Byte), []) (some [])
      = Except.ok ⟨([0xff, 0xd8, 0xff, 0xe1, 0, 2], [0xff, 0xd8, 0xff, 0xe1, 0, 2]), 2⟩ := by
    decide
  rw [h2] at h
  cases h
  revert hw
  decide

/-- C4 as amended: over a sink that accepts every write, for an absent (nil) blob
`newWriterExif` raises no error and the sink receives exactly `FF D8`; for a present
blob of length zero it raises no error either and the sink receives
`FF D8 FF E1 00 02`.  In both cases the returned writer skips two bytes. -/
theorem newWriterExif_absent_or_empty {σ : Type} (sw : WriteFn σ) (hacc : Accepts sw)
    (s0 : σ) :
    (∃ ws, newWriterExif (recording sw) (s0, []) none = Except.ok ws ∧
      ws.w.2 = [0xff, 0xd8] ∧ ws.bytesToSkip = 2) ∧
    (∃ ws, newWriterExif (recording sw) (s0, []) (some []) = Except.ok ws ∧
      ws.w.2 = [0xff, 0xd8, 0xff, 0xe1, 0, 2] ∧ ws.bytesToSkip = 2) := by
  obtain ⟨s, hs⟩ := newWriterExif_recorded sw hacc (s0, []) none
  obtain ⟨t, ht⟩ := newWriterExif_recorded sw hacc (s0, []) (some [])
  exact ⟨⟨_, hs, by simp [exifHeader], rfl⟩, ⟨_, ht, by simp [exifHeader], rfl⟩⟩

/-- Witness of C4 as amended, over the in-memory sink. -/
theorem newWriterExif_absent_or_empty_witness :
    Accepts bufferWrite ∧
    ∃ ws, newWriterExif (recording bufferWrite) (([] : List Byte), []) none = Except.ok ws ∧
      ws.w.2 = [0xff, 0xd8] ∧ ws.bytesToSkip = 2 :=
  ⟨fun _ _ => rfl, (newWriterExif_absent_or_empty bufferWrite (fun _ _ => rfl) []).1⟩

/-- C7: when the sink accepts the bytes offered to it in the call, `Write` returns
the count `len(data)` and no error, whatever the skip count and whatever the sink
does on other calls.  With `skip ≤ 0` the sink is offered `data`.  With
`len(data) < skip` the sink is not called at all: the result is `len(data)` and no
error for every sink, the sink is untouched and the skip count drops by
`len(data)`.  With `0 < skip ≤ len(data)` the sink is offered `data[skip:]`; when it
returns a count `n` and no error, `Write` returns `n + skip` and the skip count
becomes zero, which is `len(data)` when the sink took all bytes offered. -/
theorem Write_reports_full_length {σ : Type} (sw : WriteFn σ)
    (w : writerSkipper σ) (data : List Byte) :
    (w.bytesToSkip ≤ 0 → (sw w.w data).2 = ((data.length : Int), none) →
      (writerSkipper.Write sw w data).2 = ((data.length : Int), none) ∧
      (writerSkipper.Write sw w data).1 = ⟨(sw w.w data).1, w.bytesToSkip⟩) ∧
    (0 < w.bytesToSkip → (data.length : Int) < w.bytesToSkip →
      writerSkipper.Write sw w data
        = (⟨w.w, w.bytesToSkip - (data.length : Int)⟩, (data.length : Int), none)) ∧
    (0 < w.bytesToSkip → w.bytesToSkip ≤ (data.length : Int) →
      (∀ s n, sw w.w (data.drop w.bytesToSkip.toNat) = (s, n, none) →
        writerSkipper.Write sw w data = (⟨s, 0⟩, n + w.bytesToSkip, none)) ∧
      ((sw w.w (data.drop w.bytesToSkip.toNat)).2
          = (((data.drop w.bytesToSkip.toNat).length : Int), none) →
        (writerSkipper.Write sw w data).2 = ((data.length : Int), none) ∧
        (writerSkipper.Write sw w data).2.1
          = w.bytesToSkip + (sw w.w (data.drop w.bytesToSkip.toNat)).2.1 ∧
        (writerSkipper.Write sw w data).1
          = ⟨(sw w.w (data.drop w.bytesToSkip.toNat)).1, 0⟩)) ∧
    (Accepts sw → (writerSkipper.Write sw w data).2 = ((data.length : Int), none)) := by
  refine ⟨?_, ?_, ?_, fun hacc => Write_accepting sw hacc w data⟩
  · intro h0 hs
    unfold writerSkipper.Write
    rw [if_pos h0]
    exact ⟨hs, rfl⟩
  · intro h0 h1
    unfold writerSkipper.Write
    rw [if_neg (by omega), if_pos h1]
  · intro h0 h1
    constructor
    · intro s n hs
      unfold writerSkipper.Write
      rw [if_neg (by omega), if_neg (by omega), hs]
    · intro hs
      unfold writerSkipper.Write
      rw [if_neg (by omega), if_neg (by omega)]
      rcases hsw : sw w.w (data.drop w.bytesToSkip.toNat) with ⟨s1, n, e⟩
      rw [hsw] at hs
      simp only [Prod.mk.injEq] at hs
      obtain ⟨hn, he⟩ := hs
      subst he
      simp only [Prod.mk.injEq, and_true, true_and]
      rw [List.length_drop] at hn
      omega

/-- Witness of C7: a sink with room for ten bytes, which does not accept every
write, takes the one byte offered after two are skipped; a sink with no room at all
is not called when three bytes meet a skip count of five. -/
theorem Write_reports_full_length_witness :
    ¬ Accepts (limitedWrite 10) ∧
    (0 : Int) < 2 ∧ (2 : Int) ≤ (([1, 2, 3] : List Byte).length : Int) ∧
    (limitedWrite 10 [] (([1, 2, 3] : List Byte).drop (2 : Int).toNat)).2
      = (((([1, 2, 3] : List Byte).drop (2 : Int).toNat).length : Int), none) ∧
    (writerSkipper.Write (limitedWrite 10) ⟨[], 2⟩ [1, 2, 3]).2
      = ((([1, 2, 3] : List Byte).length : Int), none) ∧
    (0 : Int) < 5 ∧ ((([1, 2, 3] : List Byte).length : Nat) : Int) < 5 ∧
    writerSkipper.Write (limitedWrite 0) ⟨[], 5⟩ [1, 2, 3]
      = (⟨[], 5 - (([1, 2, 3] : List Byte).length : Int)⟩,
         (([1, 2, 3] : List Byte).length : Int), none) :=
  ⟨fun h => absurd (h [] [0, 0, 0, 0, 0, 0, 0, 0, 0, 0, 0]) (by decide),
    by decide, by decide, by decide,
    (((Write_reports_full_length (limitedWrite 10) ⟨[], 2⟩ [1, 2, 3]).2.2.1
      (by decide) (by decide)).2 (by decide)).1,
    by decide, by decide,
    (Write_reports_full_length (limitedWrite 0) ⟨[], 5⟩ [1, 2, 3]).2.1
      (by decide) (by decide)⟩

/-- C9: with `0 < skip ≤ len(data)`, when the sink's write of `data[skip:]` returns
the count `n` with an error `e`, `Write` returns exactly `(n, e)`, the skipped bytes
not added, and keeps its skip count; with `skip ≤ 0`, `Write` returns the count and
error of the sink's write of `data` unchanged. -/
theorem Write_propagates_sink_error {σ : Type} (sw : WriteFn σ) (w : writerSkipper σ)
    (data : List Byte) :
    (∀ s n e, 0 < w.bytesToSkip → w.bytesToSkip ≤ (data.length : Int) →
      sw w.w (data.drop w.bytesToSkip.toNat) = (s, n, some e) →
      (writerSkipper.Write sw w data).2 = (n, some e) ∧
      (writerSkipper.Write sw w data).1 = ⟨s, w.bytesToSkip⟩) ∧
    (w.bytesToSkip ≤ 0 →
      (writerSkipper.Write sw w data).2 = (sw w.w data).2) := by
  constructor
  · intro s n e h0 h1 hsw
    unfold writerSkipper.Write
    rw [if_neg (by omega), if_neg (by omega), hsw]
    exact ⟨rfl, rfl⟩
  · intro h0
    unfold writerSkipper.Write
    rw [if_pos h0]

/-- Witness of C9: seven bytes with skip count two over a sink with room for three
bytes; the sink takes `3 4 5` of the five bytes offered and reports a short write. -/
theorem Write_propagates_sink_error_witness :
    (0 : Int) < 2 ∧ (2 : Int) ≤ (([1, 2, 3, 4, 5, 6, 7] : List Byte).length : Int) ∧
    limitedWrite 3 [] (([1, 2, 3, 4, 5, 6, 7] : List Byte).drop (2 : Int).toNat)
      = ([3, 4, 5], 3, some (Error.other "short write")) ∧
    (writerSkipper.Write (limitedWrite 3) ⟨[], 2⟩ [1, 2, 3, 4, 5, 6, 7]).2
      = (3, some (Error.other "short write")) :=
  ⟨by decide, by decide, by decide,
    ((Write_propagates_sink_error (limitedWrite 3) ⟨[], 2⟩ [1, 2, 3, 4, 5, 6, 7]).1
      [3, 4, 5] 3 (Error.other "short write") (by decide) (by decide) (by decide)).1⟩

/-! ## Paths, the pipeline and the batch driver -/

theorem scanExt_lt : ∀ (r : List Char) (k : Nat), scanExt r = some k → k < r.length := by
  intro r
  induction r with
  | nil => intro k h; simp [scanExt] at h
  | cons c r ih =>
    intro k h
    simp only [scanExt] at h
    split_ifs at h with h1 h2
    · simp only [Option.some.injEq] at h
      subst h
      simp
    · cases hs : scanExt r with
      | none => rw [hs] at h; simp at h
      | some j =>
        rw [hs] at h
        simp only [Option.map_some', Option.some.injEq] at h
        have := ih j hs
        simp only [List.length_cons]
        omega

theorem ExtLoop_eq (p : GoString) : ∀ n, n ≤ p.length →
    ExtLoop p n = match scanExt (p.take n).reverse with
      | none => []
      | some k => p.drop (n - 1 - k) := by
  intro n
  induction n with
  | zero => intro _; simp [ExtLoop, scanExt]
  | succ i ih =>
    intro hn
    have hi : i < p.length := by omega
    have hget : p.get? i = some p[i] := List.get?_eq_get hi
    have htake : (p.take (i + 1)).reverse = p[i] :: (p.take i).reverse := by
      rw [List.take_succ, List.reverse_append]
      simp [List.getElem?_eq_getElem hi]
    rw [ExtLoop, hget, htake]
    simp only [scanExt]
    split_ifs with h1 h2
    · rfl
    · simp
    · rw [ih (by omega)]
      cases hs : scanExt (p.take i).reverse with
      | none => simp
      | some j =>
        have := scanExt_lt _ _ hs
        simp only [List.length_reverse, List.length_take] at this
        simp only [Option.map_some']
        congr 1
        omega

theorem Ext_eq (p : GoString) :
    Ext p = match scanExt p.reverse with
      | none => []
      | some k => p.drop (p.length - 1 - k) := by
  have := ExtLoop_eq p p.length (le_refl _)
  rwa [List.take_length] at this

theorem TrimSuffix_nil (p : GoString) : TrimSuffix p [] = p := by
  simp [TrimSuffix, HasSuffix]

theorem TrimSuffix_drop (p : GoString) (m : Nat) (hm : m ≤ p.length) :
    TrimSuffix p (p.drop m) = p.take m := by
  have e : p.length - (p.length - m) = m := by omega
  simp [TrimSuffix, HasSuffix, e]

theorem outPath_eq (p : GoString) :
    outPath p = (match scanExt p.reverse with
      | none => p
      | some k => p.take (p.length - 1 - k)) ++ ".jpg".toList := by
  unfold outPath
  simp only
  rw [Ext_eq]
  cases hs : scanExt p.reverse with
  | none => simp [TrimSuffix_nil]
  | some k =>
    simp only
    rw [TrimSuffix_drop p (p.length - 1 - k) (by omega)]

theorem scanExt_none_iff (r : List Char) :
    scanExt r = none ↔ '.' ∉ r.takeWhile (fun c => c != '/') := by
  induction r with
  | nil => simp [scanExt]
  | cons c r ih =>
    simp only [scanExt, IsPathSeparator]
    by_cases h1 : c = '/'
    · simp [h1]
    · by_cases h2 : c = '.'
      · simp [h2]
      · have h3 : ¬ ('.' = c) := fun h => h2 h.symm
        simp [h1, h2, h3, List.takeWhile_cons, ih]

theorem cutRev_eq (r : List Char) :
    cutRev r = (withoutExtension (r.takeWhile (fun c => c != '/')).reverse).reverse
      ++ r.dropWhile (fun c => c != '/') := by
  induction r with
  | nil => simp [cutRev, scanExt, withoutExtension]
  | cons c r ih =>
    by_cases h1 : c = '/'
    · simp [cutRev, scanExt, IsPathSeparator, h1, withoutExtension]
    · by_cases h2 : c = '.'
      · subst h2
        simp [cutRev, scanExt, IsPathSeparator, withoutExtension, List.takeWhile_cons,
          List.dropWhile_cons]
      · have h3 : ¬ ('.' = c) := fun h => h2 h.symm
        cases hs : scanExt r with
        | none =>
          have hn := (scanExt_none_iff r).1 hs
          have ih2 := ih
          simp only [cutRev, hs, withoutExtension, List.mem_reverse, hn, if_false,
            List.reverse_reverse] at ih2
          simp [cutRev, scanExt, IsPathSeparator, h1, h2, h3, hs, withoutExtension,
            List.takeWhile_cons, List.dropWhile_cons, hn]
        | some k =>
          have hn : '.' ∈ r.takeWhile (fun c => c != '/') := by
            by_contra hc
            rw [(scanExt_none_iff r).2 hc] at hs
            cases hs
          have ih2 := ih
          simp only [cutRev, hs, withoutExtension, List.mem_reverse, hn, if_true,
            List.reverse_reverse] at ih2
          simp [cutRev, scanExt, IsPathSeparator, h1, h2, h3, hs, withoutExtension,
            List.takeWhile_cons, List.dropWhile_cons, hn]
          exact ih2

theorem dirPart_append_finalElement (p : GoString) : dirPart p ++ finalElement p = p := by
  unfold dirPart finalElement
  rw [← List.reverse_append, List.takeWhile_append_dropWhile, List.reverse_reverse]

theorem cutRev_reverse (p : GoString) :
    (cutRev p.reverse).reverse = match scanExt p.reverse with
      | none => p
      | some k => p.take (p.length - 1 - k) := by
  unfold cutRev
  cases hs : scanExt p.reverse with
  | none => simp
  | some k =>
    have := scanExt_lt _ _ hs
    simp only [List.length_reverse] at this
    simp only [List.drop_reverse, List.reverse_reverse]
    congr 1
    omega

theorem outPath_eq_cutRev (p : GoString) :
    outPath p = (cutRev p.reverse).reverse ++ ".jpg".toList := by
  rw [outPath_eq, cutRev_reverse]

theorem outPath_eq_spec (p : GoString) : outPath p = specOutPath p := by
  rw [outPath_eq_cutRev, cutRev_eq]
  simp [specOutPath, dirPart, finalElement]

theorem scanExt_append_dot (a rest : List Char)
    (ha : ∀ c ∈ a, c ≠ '.' ∧ c ≠ '/') : scanExt (a ++ '.' :: rest) = some a.length := by
  induction a with
  | nil => simp [scanExt, IsPathSeparator]
  | cons c a ih =>
    have hc := ha c (List.mem_cons_self _ _)
    have := ih (fun d hd => ha d (List.mem_cons_of_mem _ hd))
    simp [scanExt, IsPathSeparator, hc.1, hc.2, this]

theorem outPath_dot (name x : GoString) (hx : ∀ c ∈ x, c ≠ '.' ∧ c ≠ '/') :
    outPath (name ++ '.' :: x) = name ++ ".jpg".toList := by
  rw [outPath_eq]
  have hs : scanExt (name ++ '.' :: x).reverse = some x.length := by
    have := scanExt_append_dot x.reverse name.reverse (by simpa using hx)
    simpa using this
  rw [hs]
  simp only
  have e : (name ++ '.' :: x).length - 1 - x.length = name.length := by
    simp only [List.length_append, List.length_cons]
    omega
  rw [e, List.take_left]

theorem outPath_idem (p : GoString) : outPath (outPath p) = outPath p := by
  rw [outPath_eq_cutRev p]
  exact outPath_dot _ ['j', 'p', 'g'] (by decide)

theorem takeWhile_dropWhile_nil (r : List Char) :
    (r.dropWhile (fun c => c != '/')).takeWhile (fun c => c != '/') = [] := by
  induction r with
  | nil => rfl
  | cons c r ih =>
    by_cases h : c = '/'
    · simp [List.dropWhile_cons, h]
    · simp [List.dropWhile_cons, h, ih]

theorem split_after_dir (r a : List Char) (ha : ∀ c ∈ a, c ≠ '/') :
    (a ++ r.dropWhile (fun c => c != '/')).dropWhile (fun c => c != '/')
        = r.dropWhile (fun c => c != '/') ∧
    (a ++ r.dropWhile (fun c => c != '/')).takeWhile (fun c => c != '/') = a := by
  induction a with
  | nil =>
    simp only [List.nil_append, takeWhile_dropWhile_nil, and_true]
    exact List.dropWhile_idempotent _ _
  | cons c a ih =>
    have hc := ha c (List.mem_cons_self _ _)
    have := ih (fun d hd => ha d (List.mem_cons_of_mem _ hd))
    simp [List.dropWhile_cons, List.takeWhile_cons, hc, this]

theorem withoutExtension_no_sep (b : GoString) (hb : ∀ c ∈ b, c ≠ '/') :
    ∀ c ∈ withoutExtension b, c ≠ '/' := by
  intro c hc
  apply hb
  unfold withoutExtension at hc
  split_ifs at hc with h
  · rw [List.mem_reverse] at hc
    have h1 := List.mem_of_mem_tail hc
    have h2 := (List.dropWhile_sublist (fun c => c != '.')).subset h1
    exact List.mem_reverse.1 h2
  · exact hc

theorem finalElement_no_sep (p : GoString) : ∀ c ∈ finalElement p, c ≠ '/' := by
  intro c hc
  unfold finalElement at hc
  rw [List.mem_reverse] at hc
  have := List.mem_takeWhile_imp hc
  simpa using this

theorem outPath_parts (p : GoString) :
    dirPart (outPath p) = dirPart p ∧
    finalElement (outPath p) = withoutExtension (finalElement p) ++ ".jpg".toList := by
  have hs := outPath_eq_spec p
  have hno : ∀ c ∈ (withoutExtension (finalElement p) ++ ".jpg".toList).reverse, c ≠ '/' := by
    intro c hc
    rw [List.mem_reverse, List.mem_append] at hc
    rcases hc with hc | hc
    · exact withoutExtension_no_sep _ (finalElement_no_sep p) c hc
    · revert c
      decide
  have key := split_after_dir p.reverse _ hno
  have hrev : (outPath p).reverse =
      (withoutExtension (finalElement p) ++ ".jpg".toList).reverse
        ++ p.reverse.dropWhile (fun c => c != '/') := by
    rw [hs, specOutPath, dirPart, List.append_assoc, List.reverse_append, List.reverse_reverse]
  constructor
  · rw [dirPart, hrev, key.1, dirPart]
  · rw [finalElement, hrev, key.2, List.reverse_reverse]

/-- C8: for every path `p` the output path of `convertFile` is the directory part of
`p`, then the final element of `p` without its extension (the text from its final
dot to its end), then `.jpg`.  The directory part is unchanged; a final element with
no dot gives `p` followed by `.jpg`; `name.x` gives `name.jpg` for every extension
`x`; and the mapping applied to its own result returns the same path. -/
theorem outPath_replaces_extension (p : GoString) :
    outPath p = dirPart p ++ withoutExtension (finalElement p) ++ ".jpg".toList ∧
    dirPart p ++ finalElement p = p ∧
    dirPart (outPath p) = dirPart p ∧
    finalElement (outPath p) = withoutExtension (finalElement p) ++ ".jpg".toList ∧
    ('.' ∉ finalElement p → outPath p = p ++ ".jpg".toList) ∧
    (∀ name x : GoString, (∀ c ∈ x, c ≠ '.' ∧ c ≠ '/') → p = name ++ '.' :: x →
      outPath p = name ++ ".jpg".toList) ∧
    outPath (outPath p) = outPath p ∧
    outPath "dir/name.heic".toList = "dir/name.jpg".toList ∧
    outPath "dir/name.HEIC".toList = "dir/name.jpg".toList ∧
    outPath "dir/name.anything".toList = "dir/name.jpg".toList ∧
    outPath "dir/name.jpg".toList = "dir/name.jpg".toList ∧
    outPath "dir.d/name".toList = "dir.d/name.jpg".toList := by
  refine ⟨outPath_eq_spec p, dirPart_append_finalElement p, (outPath_parts p).1,
    (outPath_parts p).2, ?_, ?_, outPath_idem p, by decide, by decide, by decide, by decide,
    by decide⟩
  · intro h
    have := outPath_eq_spec p
    rw [specOutPath, withoutExtension, if_neg h, dirPart_append_finalElement] at this
    exact this
  · intro name x hx hp
    rw [hp]
    exact outPath_dot name x hx

theorem convertHeif_extract_fails {ρ ι σ : Type} (C : Collab ρ ι σ) (r : ρ) (writer : σ)
    (e : Error) (h1 : (C.ExtractExif r).2 = some e)
    (h2 : errorsIs (some e) Error.noEXIF = false) :
    convertHeif C r writer = some (Error.wrap "extract exif failed" e) := by
  unfold convertHeif
  rcases hex : C.ExtractExif r with ⟨exif, err⟩
  rw [hex] at h1
  simp only at h1
  subst h1
  simp [h2, errorsWrap]

theorem convertHeif_extract_passes {ρ ι σ : Type} (C : Collab ρ ι σ) (r : ρ) (writer : σ)
    (h : (C.ExtractExif r).2 = none ∨ errorsIs (C.ExtractExif r).2 Error.noEXIF = true) :
    convertHeif C r writer =
      match C.Decode r with
      | Except.error e => some (Error.wrap "decode failed" e)
      | Except.ok img =>
        errorsWrap (C.Encode (newWriterExif C.sinkWrite writer (C.ExtractExif r).1).toOption img)
          "encode failed" := by
  unfold convertHeif
  rcases hex : C.ExtractExif r with ⟨exif, err⟩
  rw [hex] at h
  simp only at h
  have hc : (err.isSome && !errorsIs err Error.noEXIF) = false := by
    rcases h with h | h
    · subst h; rfl
    · rw [h]; simp
  simp only [hc, Bool.false_eq_true, if_false]
  cases C.Decode r with
  | error e => rfl
  | ok img =>
    simp only
    cases C.Encode (newWriterExif C.sinkWrite writer exif).toOption img <;> rfl

theorem errorsIs_wrap_cause (m : String) (e : Error) :
    errorsIs (some (Error.wrap m e)) e = true := by
  cases e <;> simp [errorsIs, Error.chainHas]

theorem convertHeif_error_cases {ρ ι σ : Type} (C : Collab ρ ι σ) (r : ρ) (writer : σ)
    (err : Error) (h : convertHeif C r writer = some err) :
    ∃ e, (err = Error.wrap "extract exif failed" e ∨ err = Error.wrap "decode failed" e ∨
      err = Error.wrap "encode failed" e) ∧ errorsIs (some err) e = true := by
  by_cases hp : (C.ExtractExif r).2 = none ∨ errorsIs (C.ExtractExif r).2 Error.noEXIF = true
  · rw [convertHeif_extract_passes C r writer hp] at h
    cases hd : C.Decode r with
    | error e1 =>
      rw [hd] at h
      simp only [Option.some.injEq] at h
      subst h
      exact ⟨e1, Or.inr (Or.inl rfl), errorsIs_wrap_cause _ _⟩
    | ok img =>
      rw [hd] at h
      simp only at h
      cases hen : C.Encode (newWriterExif C.sinkWrite writer
          (C.ExtractExif r).1).toOption img with
      | none => rw [hen] at h; simp [errorsWrap] at h
      | some e2 =>
        rw [hen] at h
        simp only [errorsWrap, Option.some.injEq] at h
        subst h
        exact ⟨e2, Or.inr (Or.inr rfl), errorsIs_wrap_cause _ _⟩
  · have hq : ∃ e0, (C.ExtractExif r).2 = some e0 ∧ errorsIs (some e0) Error.noEXIF = false := by
      cases hx : (C.ExtractExif r).2 with
      | none => exact absurd (Or.inl hx) hp
      | some e0 =>
        refine ⟨e0, rfl, ?_⟩
        cases hi : errorsIs (some e0) Error.noEXIF with
        | false => rfl
        | true => rw [hx] at hp; exact absurd (Or.inr hi) hp
    obtain ⟨e0, hx, hi⟩ := hq
    rw [convertHeif_extract_fails C r writer e0 hx hi] at h
    simp only [Option.some.injEq] at h
    subst h
    exact ⟨e0, Or.inl rfl, errorsIs_wrap_cause _ _⟩

/-- C6: `convertHeif` returns the error of the first failing stage in the order
extract, decode, encode.  It returns `extract exif failed` around `e` exactly when the
extraction returned the error `e` and `e` is not the no-EXIF sentinel; otherwise it
returns `decode failed` around `e` exactly when decoding failed with `e`; otherwise
it returns `encode failed` around `e` exactly when the encoder, applied to the writer
that `newWriterExif` built from the blob the extraction returned, failed with `e`,
and no error exactly when the encoder returned none.  After the no-EXIF sentinel
with a nil slice the writer is built from the absent blob.  Every error returned is
one of the three and has the underlying error as its cause. -/
theorem convertHeif_first_failing_stage {ρ ι σ : Type} (C : Collab ρ ι σ) (r : ρ)
    (writer : σ) :
    (∀ e, convertHeif C r writer = some (Error.wrap "extract exif failed" e) ↔
      ((C.ExtractExif r).2 = some e ∧ errorsIs (some e) Error.noEXIF = false)) ∧
    (((C.ExtractExif r).2 = none ∨ errorsIs (C.ExtractExif r).2 Error.noEXIF = true) →
      (∀ e, convertHeif C r writer = some (Error.wrap "decode failed" e) ↔
        C.Decode r = Except.error e) ∧
      (∀ img, C.Decode r = Except.ok img →
        (∀ e, convertHeif C r writer = some (Error.wrap "encode failed" e) ↔
          C.Encode (newWriterExif C.sinkWrite writer (C.ExtractExif r).1).toOption img
            = some e) ∧
        (convertHeif C r writer = none ↔
          C.Encode (newWriterExif C.sinkWrite writer (C.ExtractExif r).1).toOption img
            = none))) ∧
    (∀ e img, C.ExtractExif r = (none, some e) → errorsIs (some e) Error.noEXIF = true →
      C.Decode r = Except.ok img →
      convertHeif C r writer =
        errorsWrap (C.Encode (newWriterExif C.sinkWrite writer none).toOption img)
          "encode failed") ∧
    (∀ err, convertHeif C r writer = some err →
      ∃ e, (err = Error.wrap "extract exif failed" e ∨ err = Error.wrap "decode failed" e ∨
        err = Error.wrap "encode failed" e) ∧ errorsIs (some err) e = true) := by
  by_cases hp : (C.ExtractExif r).2 = none ∨ errorsIs (C.ExtractExif r).2 Error.noEXIF = true
  · have hc := convertHeif_extract_passes C r writer hp
    refine ⟨?_, fun _ => ⟨?_, ?_⟩, ?_, ?_⟩
    · intro e
      constructor
      · intro h
        rw [hc] at h
        cases hd : C.Decode r with
        | error e1 => rw [hd] at h; simp at h
        | ok img =>
          rw [hd] at h
          simp only at h
          cases hen : C.Encode (newWriterExif C.sinkWrite writer
              (C.ExtractExif r).1).toOption img with
          | none => rw [hen] at h; simp [errorsWrap] at h
          | some e2 => rw [hen] at h; simp [errorsWrap] at h
      · rintro ⟨h1, h2⟩
        rcases hp with hp | hp
        · rw [hp] at h1; cases h1
        · rw [h1, h2] at hp; cases hp
    · intro e
      rw [hc]
      cases hd : C.Decode r with
      | error e1 => simp
      | ok img =>
        simp only
        cases hen : C.Encode (newWriterExif C.sinkWrite writer
            (C.ExtractExif r).1).toOption img with
        | none => simp [errorsWrap]
        | some e2 => simp [errorsWrap]
    · intro img hd
      rw [hc, hd]
      simp only
      cases hen : C.Encode (newWriterExif C.sinkWrite writer
          (C.ExtractExif r).1).toOption img with
      | none => simp [errorsWrap]
      | some e2 => simp [errorsWrap]
    · intro e img hex _ hd
      rw [hc, hd, hex]
    · exact fun err h => convertHeif_error_cases C r writer err h
  · have hq : ∃ e0, (C.ExtractExif r).2 = some e0 ∧ errorsIs (some e0) Error.noEXIF = false := by
      cases hx : (C.ExtractExif r).2 with
      | none => exact absurd (Or.inl hx) hp
      | some e0 =>
        refine ⟨e0, rfl, ?_⟩
        cases hi : errorsIs (some e0) Error.noEXIF with
        | false => rfl
        | true => rw [hx] at hp; exact absurd (Or.inr hi) hp
    obtain ⟨e0, hx, hi⟩ := hq
    have hc := convertHeif_extract_fails C r writer e0 hx hi
    refine ⟨?_, fun h => absurd h hp, ?_, ?_⟩
    · intro e
      rw [hc, hx]
      simp only [Option.some.injEq, Error.wrap.injEq, true_and]
      constructor
      · intro h; subst h; exact ⟨rfl, hi⟩
      · intro h; exact h.1
    · intro e img hex his
      rw [hex] at hx
      simp only [Option.some.injEq] at hx
      rw [hx, hi] at his
      cases his
    · exact fun err h => convertHeif_error_cases C r writer err h

/-- Witness of C6: extraction returns the no-EXIF sentinel with a nil slice and
decoding fails, so `convertHeif` returns `decode failed` around the decoder's
error. -/
theorem convertHeif_first_failing_stage_witness :
    (walkDemo "x".toList).collab.ExtractExif "x".toList = (none, some Error.noEXIF) ∧
    errorsIs (some Error.noEXIF) Error.noEXIF = true ∧
    (walkDemo "x".toList).collab.Decode "x".toList
      = Except.error (Error.other "invalid heic") ∧
    convertHeif (walkDemo "x".toList).collab "x".toList []
      = some (Error.wrap "decode failed" (Error.other "invalid heic")) :=
  ⟨rfl, by decide, by decide,
    (((convertHeif_first_failing_stage (walkDemo "x".toList).collab "x".toList []).2.1
      (Or.inr (by decide))).1 (Error.other "invalid heic")).2 (by decide)⟩

theorem convertFile_error_is_wrap {ρ ι σ : Type} (W : World ρ ι σ) (p : GoString) (e : Error)
    (h : (convertFile W p).2 = some e) : ∃ m c, e = Error.wrap m c := by
  unfold convertFile at h
  cases ho : W.Open p with
  | error err =>
    rw [ho] at h
    simp only [errorsWrap, Option.some.injEq] at h
    exact ⟨_, _, h.symm⟩
  | ok r =>
    rw [ho] at h
    simp only at h
    cases hf : W.OpenFile (outPath p) with
    | error err =>
      rw [hf] at h
      simp only [errorsWrap, Option.some.injEq] at h
      exact ⟨_, _, h.symm⟩
    | ok out =>
      rw [hf] at h
      simp only at h
      cases hc : convertHeif W.collab r out with
      | none => rw [hc] at h; cases h
      | some err =>
        rw [hc] at h
        simp only [Option.some.injEq] at h
        subst h
        obtain ⟨e1, h1, _⟩ := convertHeif_error_cases W.collab r out err hc
        rcases h1 with h1 | h1 | h1 <;> exact ⟨_, _, h1⟩

/-- The joined paths for roots that are not clean: `filepath.Join` cleans its
result. -/
theorem Join_cleans :
    Join ".".toList "a.heic".toList = "a.heic".toList ∧
    Join "d/".toList "a.heic".toList = "d/a.heic".toList ∧
    Join "/".toList "a.heic".toList = "/a.heic".toList ∧
    Join "./d/../e".toList "a.heic".toList = "e/a.heic".toList ∧
    Join "d".toList "a.heic".toList = "d/a.heic".toList := by
  decide

theorem walkFn_result {ρ ι σ : Type} (W : World ρ ι σ) (path : GoString)
    (info : Option FileInfo) (err : Option Error) :
    (walkFn W path info err).2 = none ∨
    (err.isSome = true ∧ (walkFn W path info err).2 = some Error.skipDir) ∨
    (err = none ∧ ∃ m c, (walkFn W path info err).2 = some (Error.wrap m c)) := by
  cases err with
  | some e => right; left; exact ⟨rfl, rfl⟩
  | none =>
    cases info with
    | none => left; rfl
    | some i =>
      simp only [walkFn]
      split_ifs with h
      · cases hc : (convertFile W path).2 with
        | none => left; rfl
        | some e =>
          right; right
          obtain ⟨m, c, hmc⟩ := convertFile_error_is_wrap W path e hc
          exact ⟨trivial, m, c, by rw [hmc]⟩
      · left; rfl

theorem scanVisits_error {ρ ι σ : Type} (W : World ρ ι σ) :
    ∀ vs : List Visit, (scanVisits W vs).2 = none ∨
      ∃ m c, (scanVisits W vs).2 = some (Error.wrap m c) := by
  intro vs
  induction vs with
  | nil => left; rfl
  | cons v vs ih =>
    simp only [scanVisits]
    rcases hw : walkFn W v.path v.info v.err with ⟨ev, r⟩
    simp only
    split_ifs with hh
    · have := walkFn_result W v.path v.info v.err
      rw [hw] at this
      simp only at this
      rcases this with h | ⟨_, h⟩ | ⟨_, m, c, h⟩
      · subst h; simp [hardError] at hh
      · subst h; simp [hardError] at hh
      · right; exact ⟨m, c, h⟩
    · rcases hs : scanVisits W vs with ⟨ev2, r2⟩
      rw [hs] at ih
      exact ih

theorem scanVisits_append {ρ ι σ : Type} (W : World ρ ι σ) (bs : List Visit) :
    ∀ as : List Visit, scanVisits W (as ++ bs) =
      if (scanVisits W as).2.isSome then scanVisits W as
      else ((scanVisits W as).1 ++ (scanVisits W bs).1, (scanVisits W bs).2) := by
  intro as
  induction as with
  | nil => simp [scanVisits]
  | cons v vs ih =>
    simp only [List.cons_append, scanVisits]
    rcases hw : walkFn W v.path v.info v.err with ⟨ev, r⟩
    simp only
    by_cases hh : hardError r = true
    · have hr : r.isSome = true := by
        simp only [hardError, Bool.and_eq_true] at hh
        exact hh.1
      simp [hh, hr]
    · simp only [hh, Bool.false_eq_true, if_false]
      have ih2 : scanVisits W (vs.append bs) =
          if (scanVisits W vs).2.isSome then scanVisits W vs
          else ((scanVisits W vs).1 ++ (scanVisits W bs).1, (scanVisits W bs).2) := ih
      rw [ih2]
      rcases hs : scanVisits W vs with ⟨ev2, r2⟩
      rcases hb : scanVisits W bs with ⟨ev3, r3⟩
      simp only
      split_ifs <;> simp

theorem walkFn_dir {ρ ι σ : Type} (W : World ρ ι σ) (path n : GoString) :
    walkFn W path (some ⟨n, true⟩) none = ([], none) := by
  simp [walkFn]

theorem softResult_not_hard (node : FsNode) : hardError (softResult node) = false := by
  cases node with
  | file n => rfl
  | broken n e => rfl
  | dir n r es => cases r <;> rfl

mutual
theorem walk_eq_scan {ρ ι σ : Type} (W : World ρ ι σ) :
    ∀ (path : GoString) (node : FsNode),
      walk (walkFn W) path node =
        if (scanVisits W (visits path node)).2.isSome then scanVisits W (visits path node)
        else ((scanVisits W (visits path node)).1, softResult node)
  | path, FsNode.file n => by
    simp only [walk, visits, scanVisits, softResult]
    rcases hw : walkFn W path (some ⟨n, false⟩) none with ⟨ev, r⟩
    have := walkFn_result W path (some ⟨n, false⟩) none
    rw [hw] at this
    simp only at this
    rcases this with h | ⟨h, _⟩ | ⟨_, m, c, h⟩
    · subst h; simp [hardError]
    · cases h
    · subst h; simp [hardError]
  | path, FsNode.broken n e => by
    simp [walk, visits, scanVisits, softResult, walkFn, hardError]
  | path, FsNode.dir n (some e) entries => by
    simp [walk, visits, scanVisits, softResult, walkFn, hardError]
  | path, FsNode.dir n none entries => by
    have ih := walkEntries_eq_scan W path entries
    simp only [walk, visits, scanVisits, softResult, walkFn_dir, ih, Option.isSome_none,
      Bool.or_self, Bool.false_eq_true, if_false, hardError, Bool.false_and, List.nil_append]
    rcases hs : scanVisits W (visitsEntries path entries) with ⟨ev2, r2⟩
    cases r2 <;> simp
theorem walkEntries_eq_scan {ρ ι σ : Type} (W : World ρ ι σ) :
    ∀ (path : GoString) (es : List FsNode),
      walkEntries (walkFn W) path es = scanVisits W (visitsEntries path es)
  | path, [] => by simp [walkEntries, visitsEntries, scanVisits]
  | path, e :: es => by
    have ih1 := walk_eq_scan W (Join path e.name) e
    have ih2 := walkEntries_eq_scan W path es
    simp only [walkEntries, visitsEntries]
    rw [scanVisits_append, ih1, ih2]
    have herr := scanVisits_error W (visits (Join path e.name) e)
    have hsoft := softResult_not_hard e
    rcases hs : scanVisits W (visits (Join path e.name) e) with ⟨ev, r⟩
    rw [hs] at herr
    simp only at herr
    rcases herr with h | ⟨m, c, h⟩
    · subst h
      cases e with
      | file n => simp [softResult]
      | broken n e0 => simp [softResult]
      | dir n r0 es0 => cases r0 <;> simp [softResult]
    · subst h
      cases e <;> simp
end

end Heic2jpg
